import Mathlib

/-!
Verification of the transfer-market graph program: an in-memory directed
graph of football clubs in which each directed edge carries the list of
player transfers from one club to another.  The embedding below mirrors
the Python class member by member: `_add_transfer` (edge accumulation),
`get_transfers_between` (lookup), `get_shortest_path` (breadth-first
search over whole paths with a visited set updated on dequeue),
`most_connected_clubs` (degree ranking with Python slice semantics) and
`link_wikipedia` (URL derivation).  Printed failure messages are modelled
as an explicit output component of `get_shortest_path`'s result.
-/

/-- One transfer record: the payload stored on an edge of the graph. -/
structure Transfer where
  player_name : String
  position : String
  fee : Int
  year : Int
deriving DecidableEq, Repr

/-- The state of the networkx directed graph: the node list (insertion
order) and the edge list, each edge keyed by the ordered pair of clubs
and carrying its accumulated transfer list. -/
structure DiGraph where
  nodes : List String
  edges : List (String × String × List Transfer)
deriving DecidableEq, Repr

/-- The transfer record built by `_add_transfer` from its arguments. -/
def mkTransfer (player_name position : String) (fee year : Int) : Transfer :=
  { player_name := player_name, position := position, fee := fee, year := year }

/-- Does an edge entry have the given ordered key? -/
def km (from_club to_club : String) (e : String × String × List Transfer) : Bool :=
  e.1 == from_club && e.2.1 == to_club

/-- `graph.has_edge(from_club, to_club)`. -/
def hasEdge (g : DiGraph) (from_club to_club : String) : Bool :=
  g.edges.any (km from_club to_club)

/-- `graph.successors(club)`: targets of the outgoing edges of `club`,
in edge insertion order. -/
def successors (g : DiGraph) (club : String) : List String :=
  (g.edges.filter (fun e => e.1 == club)).map (fun e => e.2.1)

/-- All edge targets of the graph (used to bound the BFS work). -/
def edgeTargets (g : DiGraph) : List String :=
  g.edges.map (fun e => e.2.1)

/-- networkx node bookkeeping: adding an edge endpoint registers the club
as a node if it is not one already. -/
def addNode (ns : List String) (v : String) : List String :=
  if v ∈ ns then ns else ns ++ [v]

/-- `_add_transfer`: append the new record to the transfer list of the
edge `(from_club, to_club)` when that edge exists, otherwise create the
edge with a single-element list (registering both endpoints as nodes). -/
def _add_transfer (g : DiGraph) (from_club to_club player_name position : String)
    (fee year : Int) : DiGraph :=
  if hasEdge g from_club to_club then
    { g with
      edges := g.edges.map (fun e =>
        if km from_club to_club e then
          (e.1, e.2.1, e.2.2 ++ [mkTransfer player_name position fee year])
        else e) }
  else
    { nodes := addNode (addNode g.nodes from_club) to_club,
      edges := g.edges ++ [(from_club, to_club, [mkTransfer player_name position fee year])] }

/-- `get_transfers_between`: the transfer list of the directed edge, or
the empty list when the edge does not exist. -/
def get_transfers_between (g : DiGraph) (from_club to_club : String) : List Transfer :=
  match g.edges.find? (km from_club to_club) with
  | none => []
  | some e => e.2.2

/-- Outcome of the BFS loop: a path was dequeued whose tail is the
target, the queue ran dry, or the fuel ran out (the last outcome is
proved unreachable for the fuel chosen in `get_shortest_path`). -/
inductive BfsRes where
  | found : List String → BfsRes
  | noPath : BfsRes
  | out : BfsRes
deriving DecidableEq, Repr

/-- The BFS loop of `get_shortest_path`: a FIFO queue of candidate paths;
the dequeued path is returned when its tail is the target; an unvisited
tail is marked visited and its not-yet-visited successors extend the
path at the back of the queue. -/
def bfsAux (g : DiGraph) (target : String) :
    Nat → List String → List (List String) → BfsRes
  | 0, _, _ => .out
  | fuel + 1, visited, queue =>
    match queue with
    | [] => .noPath
    | path :: rest =>
      if path.getLastD "" = target then .found path
      else if path.getLastD "" ∈ visited then bfsAux g target fuel visited rest
      else
        bfsAux g target fuel (path.getLastD "" :: visited)
          (rest ++ ((successors g (path.getLastD "")).filter
              (fun w => decide (¬ w ∈ path.getLastD "" :: visited))).map
            (fun w => path ++ [w]))

/-- Tails of the queued paths. -/
def queueTails (queue : List (List String)) : List String :=
  queue.map (fun p => p.getLastD "")

/-- Decreasing measure for the BFS loop: each iteration either shortens
the queue or visits a new club out of the finitely many possible tails. -/
def phi (g : DiGraph) (visited : List String) (queue : List (List String)) : Nat :=
  queue.length +
    (g.edges.length + 1) *
      ((queueTails queue ++ edgeTargets g).toFinset \ visited.toFinset).card

/-- Enough fuel for the whole BFS run from the initial queue. -/
def bfsFuel (g : DiGraph) (start : String) : Nat :=
  phi g [] [[start]] + 1

/-- The message printed when a queried club is not a node. -/
def notFoundMsg : String :=
  "One or both clubs not found in the network."

/-- The message printed when both clubs are nodes but no route exists. -/
def noPathMsg (from_club to_club : String) : String :=
  "No path exists between " ++ from_club ++ " and " ++ to_club ++ "."

/-- `get_shortest_path`: the returned club list together with the list of
printed messages (the program's stdout made explicit). -/
def get_shortest_path (g : DiGraph) (from_club to_club : String) :
    List String × List String :=
  if from_club ∈ g.nodes ∧ to_club ∈ g.nodes then
    match bfsAux g to_club (bfsFuel g from_club) [] [[from_club]] with
    | .found p => (p, [])
    | .noPath => ([], [noPathMsg from_club to_club])
    | .out => ([], [])
  else ([], [notFoundMsg])

/-- networkx degree of a club in a directed graph: out-degree plus
in-degree, counting edges (not individual transfers). -/
def degreeOf (g : DiGraph) (club : String) : Nat :=
  (g.edges.filter (fun e => e.1 == club)).length +
    (g.edges.filter (fun e => e.2.1 == club)).length

/-- `graph.degree()`: every node with its degree, in node order. -/
def degrees (g : DiGraph) : List (String × Nat) :=
  g.nodes.map (fun v => (v, degreeOf g v))

/-- Python list slice `l[:k]`: a negative bound counts from the end. -/
def pySlice (k : Int) (l : List (String × Nat)) : List (String × Nat) :=
  if 0 ≤ k then l.take k.toNat else l.take ((l.length : Int) + k).toNat

/-- The descending-degree ordering used to rank clubs. -/
def degGE (a b : String × Nat) : Prop := b.2 ≤ a.2

instance : DecidableRel degGE := fun a b => Nat.decLe b.2 a.2

instance : IsTotal (String × Nat) degGE := ⟨fun a b => le_total b.2 a.2⟩

instance : IsTrans (String × Nat) degGE := ⟨fun _ _ _ h1 h2 => le_trans h2 h1⟩

/-- `most_connected_clubs`: all degrees sorted descending (a stable sort,
as Python's `sorted` with `reverse=True`), then sliced to `top_n`. -/
def most_connected_clubs (g : DiGraph) (top_n : Int) : List (String × Nat) :=
  pySlice top_n (List.insertionSort degGE (degrees g))

/-- `link_wikipedia`: the fixed base URL followed by the club name with
every space replaced by an underscore. -/
def link_wikipedia (club_name : String) : String :=
  "https://en.wikipedia.org/wiki/" ++
    String.mk (club_name.data.map (fun ch => if ch = ' ' then '_' else ch))

/-- Consecutive clubs of the list are all directed edges of the graph. -/
def isClubPath (g : DiGraph) : List String → Bool
  | [] => true
  | [_] => true
  | a :: b :: rest => hasEdge g a b && isClubPath g (b :: rest)

/-- A nonempty club sequence starting at `src` whose consecutive pairs
are all directed edges. -/
def ValidFrom (g : DiGraph) (src : String) (p : List String) : Prop :=
  p ≠ [] ∧ p.head? = some src ∧ isClubPath g p = true

instance (g : DiGraph) (src : String) (p : List String) :
    Decidable (ValidFrom g src p) := by
  unfold ValidFrom; infer_instance

/-- A directed path of the graph from `a` to `b`. -/
def IsPathFromTo (g : DiGraph) (a b : String) (p : List String) : Prop :=
  ValidFrom g a p ∧ p.getLastD "" = b

instance (g : DiGraph) (a b : String) (p : List String) :
    Decidable (IsPathFromTo g a b p) := by
  unfold IsPathFromTo; infer_instance

/-- Replay a list of `_add_transfer` calls, all for the same ordered
club pair. -/
def applyTransfers (g : DiGraph) (from_club to_club : String) :
    List (String × String × Int × Int) → DiGraph
  | [] => g
  | t :: ts =>
    applyTransfers (_add_transfer g from_club to_club t.1 t.2.1 t.2.2.1 t.2.2.2)
      from_club to_club ts

/-- Edge-list well-formedness: at most one edge per ordered club pair,
and no edge with an empty transfer list. -/
def WfEdges (g : DiGraph) : Prop :=
  (g.edges.map (fun e => (e.1, e.2.1))).Nodup ∧ ∀ e ∈ g.edges, e.2.2 ≠ []

instance (g : DiGraph) : Decidable (WfEdges g) := by
  unfold WfEdges; infer_instance

/-- The BFS loop invariant: queued paths are valid paths from the source,
the queue is sorted by length with spread at most one, the source is
covered, and every escaped unvisited successor of a visited club is
reachable through a queued path of optimal length. -/
structure BfsInv (g : DiGraph) (src : String) (visited : List String)
    (queue : List (List String)) : Prop where
  valid : ∀ p ∈ queue, ValidFrom g src p
  sorted_len : List.Pairwise (fun p q : List String => p.length ≤ q.length) queue
  within : ∀ p ∈ queue, ∀ q ∈ queue, p.length ≤ q.length + 1
  base : src ∈ visited ∨ [src] ∈ queue
  expand : ∀ v ∈ visited, ∀ w ∈ successors g v, w ∉ visited →
    ∃ p ∈ queue, p.getLastD "" = w ∧
      ∀ pi, ValidFrom g src pi → pi.getLastD "" = v → p.length ≤ pi.length + 1

/-! ### Basic lemmas on edge keys and lookup -/

theorem km_iff {fc tc : String} {e : String × String × List Transfer} :
    km fc tc e = true ↔ e.1 = fc ∧ e.2.1 = tc := by
  simp [km]

theorem hasEdge_iff {g : DiGraph} {u v : String} :
    hasEdge g u v = true ↔ ∃ e ∈ g.edges, e.1 = u ∧ e.2.1 = v := by
  simp [hasEdge, List.any_eq_true, km_iff]

theorem get_transfers_eq (g : DiGraph) (u v : String) :
    get_transfers_between g u v
      = ((g.edges.find? (km u v)).map (fun e => e.2.2)).getD [] := by
  unfold get_transfers_between
  cases g.edges.find? (km u v) <;> rfl

theorem find?_map_upd (fc tc : String) (t : Transfer)
    (es : List (String × String × List Transfer)) :
    (es.map (fun e => if km fc tc e then (e.1, e.2.1, e.2.2 ++ [t]) else e)).find? (km fc tc)
      = (es.find? (km fc tc)).map (fun e => (e.1, e.2.1, e.2.2 ++ [t])) := by
  induction es with
  | nil => rfl
  | cons e es ih =>
    simp only [List.map_cons]
    by_cases h : km fc tc e = true
    · rw [if_pos h, List.find?_cons_of_pos _ h,
        List.find?_cons_of_pos _ (show km fc tc (e.1, e.2.1, e.2.2 ++ [t]) = true from h)]
      rfl
    · rw [if_neg h, List.find?_cons_of_neg _ h, List.find?_cons_of_neg _ h]
      exact ih

theorem find?_map_upd_other {u v fc tc : String} (h : u ≠ fc ∨ v ≠ tc) (t : Transfer)
    (es : List (String × String × List Transfer)) :
    (es.map (fun e => if km fc tc e then (e.1, e.2.1, e.2.2 ++ [t]) else e)).find? (km u v)
      = es.find? (km u v) := by
  induction es with
  | nil => rfl
  | cons e es ih =>
    simp only [List.map_cons]
    by_cases h2 : km u v e = true
    · have h3 : ¬ km fc tc e = true := by
        intro h4
        rcases km_iff.1 h2 with ⟨hu, hv⟩
        rcases km_iff.1 h4 with ⟨hf, ht⟩
        rcases h with h | h
        · exact h (hu ▸ hf ▸ rfl)
        · exact h (hv ▸ ht ▸ rfl)
      rw [if_neg h3, List.find?_cons_of_pos _ h2, List.find?_cons_of_pos _ h2]
    · have h5 : ¬ km u v (if km fc tc e then (e.1, e.2.1, e.2.2 ++ [t]) else e) = true := by
        split
        · exact h2
        · exact h2
      rw [List.find?_cons_of_neg _ h5, List.find?_cons_of_neg _ h2]
      exact ih

theorem find?_none_of_hasEdge_false {g : DiGraph} {fc tc : String}
    (h : ¬ hasEdge g fc tc = true) : g.edges.find? (km fc tc) = none := by
  rw [List.find?_eq_none]
  intro x hx hpx
  exact h (by rw [hasEdge]; exact List.any_eq_true.2 ⟨x, hx, hpx⟩)

theorem get_transfers_add_same (g : DiGraph) (fc tc pn pos : String) (fee yr : Int) :
    get_transfers_between (_add_transfer g fc tc pn pos fee yr) fc tc
      = get_transfers_between g fc tc ++ [mkTransfer pn pos fee yr] := by
  unfold _add_transfer
  by_cases h : hasEdge g fc tc = true
  · rw [if_pos h, get_transfers_eq, get_transfers_eq]
    show ((List.find? _ (g.edges.map _)).map _).getD [] = _
    rw [find?_map_upd]
    have h1 : (g.edges.find? (km fc tc)).isSome := by
      rw [hasEdge, List.any_eq_true] at h
      rcases h with ⟨x, hx, hpx⟩
      exact List.find?_isSome.2 ⟨x, hx, hpx⟩
    rcases Option.isSome_iff_exists.1 h1 with ⟨e, he⟩
    rw [he]
    rfl
  · rw [if_neg h, get_transfers_eq, get_transfers_eq]
    show ((List.find? _ (g.edges ++ [(fc, tc, [mkTransfer pn pos fee yr])])).map _).getD [] = _
    rw [List.find?_append, find?_none_of_hasEdge_false h]
    have h2 : km fc tc (fc, tc, [mkTransfer pn pos fee yr]) = true := by
      simp [km]
    rw [List.find?_cons_of_pos _ h2]
    rfl

theorem get_transfers_add_other {u v fc tc : String} (h : u ≠ fc ∨ v ≠ tc)
    (g : DiGraph) (pn pos : String) (fee yr : Int) :
    get_transfers_between (_add_transfer g fc tc pn pos fee yr) u v
      = get_transfers_between g u v := by
  unfold _add_transfer
  by_cases hh : hasEdge g fc tc = true
  · rw [if_pos hh, get_transfers_eq, get_transfers_eq]
    show ((List.find? _ (g.edges.map _)).map _).getD [] = _
    rw [find?_map_upd_other h]
  · rw [if_neg hh, get_transfers_eq, get_transfers_eq]
    show ((List.find? _ (g.edges ++ [(fc, tc, [mkTransfer pn pos fee yr])])).map _).getD [] = _
    rw [List.find?_append]
    have h2 : ¬ km u v (fc, tc, [mkTransfer pn pos fee yr]) = true := by
      intro h3
      rcases km_iff.1 h3 with ⟨hu, hv⟩
      rcases h with h | h
      · exact h hu.symm
      · exact h hv.symm
    rw [List.find?_cons_of_neg _ h2]
    cases g.edges.find? (km u v) <;> rfl

/-! ### Claims about ingestion, lookup, ranking and the link -/

/-- C2: for valid inputs, `_add_transfer` followed by
`get_transfers_between` on the same ordered pair yields a list whose last
element is exactly the added transfer and whose length grew by one. -/
theorem c2_add_then_lookup (g : DiGraph) (from_club to_club player_name position : String)
    (fee year : Int) (h1 : from_club ≠ "") (h2 : to_club ≠ "") (hfee : 0 ≤ fee) :
    (get_transfers_between (_add_transfer g from_club to_club player_name position fee year)
        from_club to_club).getLast?
      = some (mkTransfer player_name position fee year)
    ∧ (get_transfers_between (_add_transfer g from_club to_club player_name position fee year)
        from_club to_club).length
      = (get_transfers_between g from_club to_club).length + 1 := by
  rw [get_transfers_add_same]
  exact ⟨List.getLast?_concat _, by simp⟩

theorem c2_witness :
    (("Arsenal" : String) ≠ "" ∧ ("Chelsea" : String) ≠ "" ∧ (0 : Int) ≤ 5)
    ∧ ((get_transfers_between (_add_transfer ⟨[], []⟩ "Arsenal" "Chelsea" "P" "FW" 5 2020)
          "Arsenal" "Chelsea").getLast? = some (mkTransfer "P" "FW" 5 2020)
        ∧ (get_transfers_between (_add_transfer ⟨[], []⟩ "Arsenal" "Chelsea" "P" "FW" 5 2020)
            "Arsenal" "Chelsea").length
          = (get_transfers_between ⟨[], []⟩ "Arsenal" "Chelsea").length + 1) :=
  ⟨⟨by decide, by decide, by decide⟩,
    c2_add_then_lookup ⟨[], []⟩ "Arsenal" "Chelsea" "P" "FW" 5 2020
      (by decide) (by decide) (by decide)⟩

/-- C3 counterexample: `top_n = -1` is nonpositive, yet on a two-club
graph the Python slice `[:-1]` keeps the first entry, so the result is
not empty. -/
theorem c3_counterexample :
    (-1 : Int) ≤ 0
    ∧ most_connected_clubs (_add_transfer ⟨[], []⟩ "A" "B" "p" "FW" 3 2020) (-1) = [("A", 1)]
    ∧ most_connected_clubs (_add_transfer ⟨[], []⟩ "A" "B" "p" "FW" 3 2020) (-1) ≠ [] := by
  refine ⟨by decide, by decide, by decide⟩

/-- C3 (amended): `most_connected_clubs 0` is empty, and a negative
`top_n` yields the empty list exactly when it is at most minus the club
count, because the Python slice `[:top_n]` drops `-top_n` entries from
the end. -/
theorem c3_amended (g : DiGraph) (n : Int)
    (h : n = 0 ∨ n ≤ -(g.nodes.length : Int)) :
    most_connected_clubs g n = [] := by
  have hlen : (List.insertionSort degGE (degrees g)).length = g.nodes.length := by
    rw [(List.perm_insertionSort degGE (degrees g)).length_eq]
    simp [degrees]
  unfold most_connected_clubs pySlice
  rcases h with rfl | h
  · simp
  · by_cases h0 : (0 : Int) ≤ n
    · have hn : n = 0 := by
        have : -(g.nodes.length : Int) ≤ 0 := by
          have := Int.natCast_nonneg g.nodes.length
          omega
        omega
      subst hn
      simp
    · rw [if_neg h0]
      have hz : ((List.insertionSort degGE (degrees g)).length : Int) + n ≤ 0 := by
        rw [hlen]
        omega
      rw [Int.toNat_of_nonpos hz]
      simp

theorem c3_witness :
    ((0 : Int) = 0 ∨ (0 : Int) ≤ -(((DiGraph.mk ["A"] []).nodes.length : Int)))
    ∧ most_connected_clubs ⟨["A"], []⟩ 0 = [] :=
  ⟨Or.inl rfl, c3_amended ⟨["A"], []⟩ 0 (Or.inl rfl)⟩

/-- C5: the graph is directed; adding transfers only for the ordered pair
`(A, B)` never creates data on the reverse pair `(B, A)`. -/
theorem c5_directedness (g : DiGraph) (A B : String) (hAB : A ≠ B)
    (h0 : get_transfers_between g B A = [])
    (ts : List (String × String × Int × Int)) :
    get_transfers_between (applyTransfers g A B ts) B A = [] := by
  induction ts generalizing g with
  | nil => exact h0
  | cons t ts ih =>
    show get_transfers_between
        (applyTransfers (_add_transfer g A B t.1 t.2.1 t.2.2.1 t.2.2.2) A B ts) B A = []
    exact ih _ (by rw [get_transfers_add_other (Or.inl hAB.symm)]; exact h0)

theorem c5_witness :
    (("A" : String) ≠ "B" ∧ get_transfers_between ⟨[], []⟩ "B" "A" = [])
    ∧ get_transfers_between
        (applyTransfers ⟨[], []⟩ "A" "B" [("P", "FW", 5, 2020), ("Q", "GK", 2, 2021)]) "B" "A"
      = [] :=
  ⟨⟨by decide, by decide⟩,
    c5_directedness ⟨[], []⟩ "A" "B" (by decide) (by decide)
      [("P", "FW", 5, 2020), ("Q", "GK", 2, 2021)]⟩

/-- C6: `_add_transfer` preserves edge-list well-formedness (one edge per
ordered pair, transfer lists never empty) and only grows the state: the
node list is extended at the back and every lookup result is extended at
the back, so no node, edge or recorded transfer is removed or altered. -/
theorem c6_wf_and_monotone (g : DiGraph) (fc tc pn pos : String) (fee yr : Int)
    (h : WfEdges g) :
    WfEdges (_add_transfer g fc tc pn pos fee yr)
    ∧ (∃ ns, (_add_transfer g fc tc pn pos fee yr).nodes = g.nodes ++ ns)
    ∧ ∀ u v, ∃ ts, get_transfers_between (_add_transfer g fc tc pn pos fee yr) u v
        = get_transfers_between g u v ++ ts := by
  refine ⟨?_, ?_, ?_⟩
  · unfold _add_transfer
    by_cases hh : hasEdge g fc tc = true
    · rw [if_pos hh]
      constructor
      · show ((g.edges.map _).map
            (fun e : String × String × List Transfer => (e.1, e.2.1))).Nodup
        rw [List.map_map]
        have heq : g.edges.map
              ((fun e : String × String × List Transfer => (e.1, e.2.1)) ∘
                (fun e => if km fc tc e then (e.1, e.2.1, e.2.2 ++ [mkTransfer pn pos fee yr]) else e))
            = g.edges.map (fun e => (e.1, e.2.1)) := by
          apply List.map_congr_left
          intro e _
          by_cases hk : km fc tc e = true
          · simp [Function.comp, hk]
          · simp [Function.comp, hk]
        rw [heq]
        exact h.1
      · intro e he
        rcases List.mem_map.1 he with ⟨e0, he0, rfl⟩
        by_cases hk : km fc tc e0 = true
        · rw [if_pos hk]
          simp
        · rw [if_neg hk]
          exact h.2 e0 he0
    · rw [if_neg hh]
      constructor
      · show ((g.edges ++ [(fc, tc, [mkTransfer pn pos fee yr])]).map
            (fun e => (e.1, e.2.1))).Nodup
        rw [List.map_append]
        rw [List.nodup_append]
        refine ⟨h.1, by simp, ?_⟩
        intro a ha hb
        simp only [List.map_cons, List.map_nil, List.mem_singleton] at hb
        subst hb
        rcases List.mem_map.1 ha with ⟨e0, he0, hkey⟩
        have : hasEdge g fc tc = true := by
          rw [hasEdge_iff]
          refine ⟨e0, he0, ?_, ?_⟩
          · exact congrArg Prod.fst hkey
          · exact congrArg Prod.snd hkey
        exact hh this
      · intro e he
        rcases List.mem_append.1 he with he | he
        · exact h.2 e he
        · simp only [List.mem_singleton] at he
          subst he
          simp
  · unfold _add_transfer
    by_cases hh : hasEdge g fc tc = true
    · rw [if_pos hh]
      exact ⟨[], by simp⟩
    · rw [if_neg hh]
      have addN : ∀ (ns : List String) (v : String), ∃ l, addNode ns v = ns ++ l := by
        intro ns v
        unfold addNode
        split
        · exact ⟨[], (List.append_nil ns).symm⟩
        · exact ⟨[v], rfl⟩
      obtain ⟨l1, e1⟩ := addN g.nodes fc
      obtain ⟨l2, e2⟩ := addN (addNode g.nodes fc) tc
      exact ⟨l1 ++ l2, by show addNode (addNode g.nodes fc) tc = _; rw [e2, e1, List.append_assoc]⟩
  · intro u v
    by_cases hu : u = fc ∧ v = tc
    · rcases hu with ⟨rfl, rfl⟩
      exact ⟨[mkTransfer pn pos fee yr], get_transfers_add_same g u v pn pos fee yr⟩
    · refine ⟨[], ?_⟩
      rw [get_transfers_add_other (not_and_or.1 hu), List.append_nil]

theorem c6_witness :
    WfEdges (DiGraph.mk [] [])
    ∧ (WfEdges (_add_transfer ⟨[], []⟩ "A" "B" "P" "FW" 5 2020)
        ∧ (∃ ns, (_add_transfer ⟨[], []⟩ "A" "B" "P" "FW" 5 2020).nodes
            = (DiGraph.mk [] []).nodes ++ ns)
        ∧ ∀ u v, ∃ ts, get_transfers_between (_add_transfer ⟨[], []⟩ "A" "B" "P" "FW" 5 2020) u v
            = get_transfers_between ⟨[], []⟩ u v ++ ts) :=
  ⟨by decide, c6_wf_and_monotone ⟨[], []⟩ "A" "B" "P" "FW" 5 2020 (by decide)⟩

theorem pySlice_sublist (k : Int) (l : List (String × Nat)) : (pySlice k l).Sublist l := by
  unfold pySlice
  split
  · exact List.take_sublist _ _
  · exact List.take_sublist _ _

/-- C7: the ranking lists `(club, degree)` pairs in descending degree
order, each degree being the club's adjacency count (in-degree plus
out-degree over edges); with `top_n` at least the club count, every club
of the graph appears exactly once. -/
theorem c7_most_connected (g : DiGraph) (top_n : Int) :
    List.Pairwise (fun a b : String × Nat => b.2 ≤ a.2) (most_connected_clubs g top_n)
    ∧ (∀ e ∈ most_connected_clubs g top_n, e.2 = degreeOf g e.1)
    ∧ ((g.nodes.length : Int) ≤ top_n →
        ((most_connected_clubs g top_n).map Prod.fst).Perm g.nodes
        ∧ (g.nodes.Nodup →
            ∀ c ∈ g.nodes, ((most_connected_clubs g top_n).map Prod.fst).count c = 1)) := by
  have hperm : (List.insertionSort degGE (degrees g)).Perm (degrees g) :=
    List.perm_insertionSort degGE (degrees g)
  refine ⟨?_, ?_, ?_⟩
  · have hs : List.Pairwise degGE (List.insertionSort degGE (degrees g)) :=
      List.sorted_insertionSort degGE (degrees g)
    exact List.Pairwise.sublist (pySlice_sublist top_n _) hs
  · intro e he
    have h1 : e ∈ List.insertionSort degGE (degrees g) :=
      (pySlice_sublist top_n _).subset he
    have h2 : e ∈ degrees g := hperm.mem_iff.1 h1
    rcases List.mem_map.1 h2 with ⟨v, _, rfl⟩
    rfl
  · intro htop
    have h0 : (0 : Int) ≤ top_n := le_trans (Int.natCast_nonneg _) htop
    have hlen : (List.insertionSort degGE (degrees g)).length = g.nodes.length := by
      rw [hperm.length_eq]
      simp [degrees]
    have htake : pySlice top_n (List.insertionSort degGE (degrees g))
        = List.insertionSort degGE (degrees g) := by
      unfold pySlice
      rw [if_pos h0]
      apply List.take_of_length_le
      rw [hlen]
      have : (g.nodes.length : Int).toNat ≤ top_n.toNat := Int.toNat_le_toNat htop
      simpa using this
    have hmap : ((most_connected_clubs g top_n).map Prod.fst).Perm g.nodes := by
      unfold most_connected_clubs
      rw [htake]
      have : ((degrees g).map Prod.fst) = g.nodes := by
        unfold degrees
        rw [List.map_map]
        exact List.map_id g.nodes
      exact this ▸ (hperm.map Prod.fst)
    refine ⟨hmap, ?_⟩
    intro hnd c hc
    rw [hmap.count_eq]
    exact List.count_eq_one_of_mem hnd hc

theorem c7_witness :
    List.Pairwise (fun a b : String × Nat => b.2 ≤ a.2)
        (most_connected_clubs ⟨["A", "B"], [("A", "B", [mkTransfer "p" "FW" 3 2020])]⟩ 5)
    ∧ (∀ e ∈ most_connected_clubs ⟨["A", "B"], [("A", "B", [mkTransfer "p" "FW" 3 2020])]⟩ 5,
        e.2 = degreeOf ⟨["A", "B"], [("A", "B", [mkTransfer "p" "FW" 3 2020])]⟩ e.1)
    ∧ (((["A", "B"] : List String).length : Int) ≤ 5 →
        ((most_connected_clubs ⟨["A", "B"], [("A", "B", [mkTransfer "p" "FW" 3 2020])]⟩ 5).map
            Prod.fst).Perm ["A", "B"]
        ∧ ((["A", "B"] : List String).Nodup →
            ∀ c ∈ (["A", "B"] : List String),
              ((most_connected_clubs ⟨["A", "B"], [("A", "B", [mkTransfer "p" "FW" 3 2020])]⟩
                  5).map Prod.fst).count c = 1)) :=
  c7_most_connected ⟨["A", "B"], [("A", "B", [mkTransfer "p" "FW" 3 2020])]⟩ 5

/-- C9: `link_wikipedia` is pure string derivation: the fixed base URL
followed by the club name with every space turned into an underscore; in
particular it maps Manchester United to its underscored wiki URL. -/
theorem c9_link_wikipedia :
    (∀ c : String, (link_wikipedia c).data
        = "https://en.wikipedia.org/wiki/".data
          ++ c.data.map (fun ch => if ch = ' ' then '_' else ch))
    ∧ link_wikipedia "Manchester United" = "https://en.wikipedia.org/wiki/Manchester_United" := by
  constructor
  · intro c
    unfold link_wikipedia
    rw [String.data_append]
  · decide

/-! ### Path lemmas for the BFS analysis -/

theorem isClubPath_concat {g : DiGraph} : ∀ (l : List String) (w : String),
    isClubPath g (l ++ [w]) = true ↔
      (isClubPath g l = true ∧ ∀ v, l.getLast? = some v → hasEdge g v w = true) := by
  intro l
  induction l with
  | nil => intro w; simp [isClubPath]
  | cons a t ih =>
    intro w
    cases t with
    | nil => simp [isClubPath]
    | cons b t2 =>
      have ih2 := ih w
      simp only [List.cons_append] at ih2 ⊢
      show (hasEdge g a b && isClubPath g (b :: (t2 ++ [w]))) = true ↔ _
      rw [Bool.and_eq_true, ih2]
      show _ ↔ ((hasEdge g a b && isClubPath g (b :: t2)) = true ∧ _)
      rw [Bool.and_eq_true, List.getLast?_cons_cons]
      tauto

theorem head?_concat_of_ne_nil {l : List String} (h : l ≠ []) (w : String) :
    (l ++ [w]).head? = l.head? := by
  cases l with
  | nil => exact absurd rfl h
  | cons a t => rfl

theorem getLast?_eq_getLastD {p : List String} (h : p ≠ []) :
    p.getLast? = some (p.getLastD "") := by
  cases hp : p.getLast? with
  | none => exact absurd (List.getLast?_eq_none_iff.1 hp) h
  | some x => rw [List.getLastD_eq_getLast?, hp]; rfl

theorem valid_single (g : DiGraph) (src : String) : ValidFrom g src [src] :=
  ⟨by simp, rfl, rfl⟩

theorem ValidFrom.concat {g : DiGraph} {src : String} {p : List String}
    (h : ValidFrom g src p) {w : String}
    (he : hasEdge g (p.getLastD "") w = true) : ValidFrom g src (p ++ [w]) := by
  refine ⟨by simp, ?_, ?_⟩
  · rw [head?_concat_of_ne_nil h.1]; exact h.2.1
  · rw [isClubPath_concat]
    refine ⟨h.2.2, ?_⟩
    intro v hv
    rw [getLast?_eq_getLastD h.1] at hv
    injection hv with hv
    exact hv ▸ he

theorem ValidFrom.of_concat {g : DiGraph} {src : String} {l : List String} {w : String}
    (h : ValidFrom g src (l ++ [w])) (hl : l ≠ []) : ValidFrom g src l := by
  refine ⟨hl, ?_, ?_⟩
  · rw [← head?_concat_of_ne_nil hl w]; exact h.2.1
  · exact ((isClubPath_concat l w).1 h.2.2).1

theorem edge_of_concat {g : DiGraph} {src : String} {l : List String} {w : String}
    (h : ValidFrom g src (l ++ [w])) (hl : l ≠ []) :
    hasEdge g (l.getLastD "") w = true :=
  ((isClubPath_concat l w).1 h.2.2).2 _ (getLast?_eq_getLastD hl)

theorem hasEdge_iff_mem_successors {g : DiGraph} {v w : String} :
    hasEdge g v w = true ↔ w ∈ successors g v := by
  rw [hasEdge_iff]
  simp only [successors, List.mem_map, List.mem_filter, beq_iff_eq]
  constructor
  · rintro ⟨e, he, h1, h2⟩
    exact ⟨e, ⟨he, h1⟩, h2⟩
  · rintro ⟨e, ⟨he, h1⟩, h2⟩
    exact ⟨e, he, h1, h2⟩

theorem mem_dropLast_or_getLastD {α : Type} (d : α) :
    ∀ (p : List α) (x : α), x ∈ p → x ∈ p.dropLast ∨ x = p.getLastD d := by
  intro p
  induction p with
  | nil => intro x hx; exact absurd hx (List.not_mem_nil x)
  | cons a t ih =>
    intro x hx
    cases t with
    | nil =>
      simp only [List.mem_singleton] at hx
      exact Or.inr (by rw [hx]; rfl)
    | cons b t2 =>
      rcases List.mem_cons.1 hx with rfl | hx
      · exact Or.inl (by simp [List.dropLast])
      · rcases ih x hx with h | h
        · exact Or.inl (by simp [List.dropLast]; exact Or.inr h)
        · exact Or.inr (by rw [h]; rfl)

/-! ### The BFS invariant and its preservation -/

theorem exists_short_in_queue {g : DiGraph} {src : String} {visited : List String}
    {queue : List (List String)} (inv : BfsInv g src visited queue)
    (pi : List String) :
    ValidFrom g src pi → pi.getLastD "" ∉ visited → ∃ p ∈ queue, p.length ≤ pi.length := by
  induction pi using List.reverseRecOn with
  | nil => intro hv _; exact absurd rfl hv.1
  | append_singleton l w ih =>
    intro hv ht
    by_cases hl : l = []
    · subst hl
      have hw : w = src := by
        have h2 := hv.2.1
        simpa using h2
      subst hw
      rcases inv.base with hb | hb
      · exact absurd hb (by simpa using ht)
      · exact ⟨[w], hb, by simp⟩
    · have hvl : ValidFrom g src l := hv.of_concat hl
      have hedge : hasEdge g (l.getLastD "") w = true := edge_of_concat hv hl
      have hw : (l ++ [w]).getLastD "" = w := List.getLastD_concat _ _ _
      rw [hw] at ht
      by_cases hvis : l.getLastD "" ∈ visited
      · rcases inv.expand (l.getLastD "") hvis w (hasEdge_iff_mem_successors.1 hedge) ht with
          ⟨p, hp, _, hmin⟩
        refine ⟨p, hp, ?_⟩
        have h3 := hmin l hvl rfl
        simp only [List.length_append, List.length_singleton]
        omega
      · rcases ih hvl hvis with ⟨p, hp, hlen⟩
        refine ⟨p, hp, ?_⟩
        simp only [List.length_append, List.length_singleton]
        omega

theorem front_opt {g : DiGraph} {src : String} {visited : List String}
    {p0 : List String} {rest : List (List String)}
    (inv : BfsInv g src visited (p0 :: rest))
    (pi : List String) (hv : ValidFrom g src pi) (ht : pi.getLastD "" ∉ visited) :
    p0.length ≤ pi.length := by
  rcases exists_short_in_queue inv pi hv ht with ⟨p, hp, hlen⟩
  rcases List.mem_cons.1 hp with rfl | hp
  · exact hlen
  · exact le_trans ((List.pairwise_cons.1 inv.sorted_len).1 p hp) hlen

theorem BfsInv.discard {g : DiGraph} {src : String} {visited : List String}
    {p0 : List String} {rest : List (List String)}
    (inv : BfsInv g src visited (p0 :: rest))
    (h : p0.getLastD "" ∈ visited) : BfsInv g src visited rest where
  valid := fun p hp => inv.valid p (List.mem_cons_of_mem _ hp)
  sorted_len := (List.pairwise_cons.1 inv.sorted_len).2
  within := fun p hp q hq =>
    inv.within p (List.mem_cons_of_mem _ hp) q (List.mem_cons_of_mem _ hq)
  base := by
    rcases inv.base with hb | hb
    · exact Or.inl hb
    · rcases List.mem_cons.1 hb with hb | hb
      · subst hb
        exact Or.inl (by simpa using h)
      · exact Or.inr hb
  expand := by
    intro v hv w hw hwv
    rcases inv.expand v hv w hw hwv with ⟨p, hp, hpw, hmin⟩
    rcases List.mem_cons.1 hp with rfl | hp
    · rw [hpw] at h
      exact absurd h hwv
    · exact ⟨p, hp, hpw, hmin⟩

theorem BfsInv.expandStep {g : DiGraph} {src : String} {visited : List String}
    {p0 : List String} {rest : List (List String)}
    (inv : BfsInv g src visited (p0 :: rest))
    (hnv : p0.getLastD "" ∉ visited) :
    BfsInv g src (p0.getLastD "" :: visited)
      (rest ++ ((successors g (p0.getLastD "")).filter
          (fun w => decide (¬ w ∈ p0.getLastD "" :: visited))).map (fun w => p0 ++ [w])) := by
  have hp0 : p0 ∈ p0 :: rest := List.mem_cons_self _ _
  have hvp0 : ValidFrom g src p0 := inv.valid p0 hp0
  have hexts_mem : ∀ p ∈ ((successors g (p0.getLastD "")).filter
      (fun w => decide (¬ w ∈ p0.getLastD "" :: visited))).map (fun w => p0 ++ [w]),
      ∃ w, w ∈ successors g (p0.getLastD "") ∧ w ∉ p0.getLastD "" :: visited ∧ p = p0 ++ [w] := by
    intro p hp
    rcases List.mem_map.1 hp with ⟨w, hw, rfl⟩
    rcases List.mem_filter.1 hw with ⟨hw1, hw2⟩
    exact ⟨w, hw1, by simpa using hw2, rfl⟩
  have hexts_len : ∀ p ∈ ((successors g (p0.getLastD "")).filter
      (fun w => decide (¬ w ∈ p0.getLastD "" :: visited))).map (fun w => p0 ++ [w]),
      p.length = p0.length + 1 := by
    intro p hp
    rcases hexts_mem p hp with ⟨w, _, _, rfl⟩
    simp
  refine ⟨?_, ?_, ?_, ?_, ?_⟩
  · intro p hp
    rcases List.mem_append.1 hp with hp | hp
    · exact inv.valid p (List.mem_cons_of_mem _ hp)
    · rcases hexts_mem p hp with ⟨w, hw1, _, rfl⟩
      exact hvp0.concat (hasEdge_iff_mem_successors.2 hw1)
  · rw [List.pairwise_append]
    refine ⟨(List.pairwise_cons.1 inv.sorted_len).2, ?_, ?_⟩
    · apply List.pairwise_of_forall_mem_list
      intro p hp q hq
      rw [hexts_len p hp, hexts_len q hq]
    · intro q hq e he
      rw [hexts_len e he]
      exact inv.within q (List.mem_cons_of_mem _ hq) p0 hp0
  · intro p hp q hq
    rcases List.mem_append.1 hp with hp | hp <;> rcases List.mem_append.1 hq with hq | hq
    · exact inv.within p (List.mem_cons_of_mem _ hp) q (List.mem_cons_of_mem _ hq)
    · rw [hexts_len q hq]
      have := inv.within p (List.mem_cons_of_mem _ hp) p0 hp0
      omega
    · rw [hexts_len p hp]
      have := (List.pairwise_cons.1 inv.sorted_len).1 q hq
      omega
    · rw [hexts_len p hp, hexts_len q hq]
      omega
  · rcases inv.base with hb | hb
    · exact Or.inl (List.mem_cons_of_mem _ hb)
    · rcases List.mem_cons.1 hb with hb | hb
      · subst hb
        exact Or.inl (by simp)
      · exact Or.inr (List.mem_append_left _ hb)
  · intro v hv w hw hwv
    have hwv2 : w ∉ visited := fun hc => hwv (List.mem_cons_of_mem _ hc)
    rcases List.mem_cons.1 hv with rfl | hv
    · -- the newly visited club: its fresh extension is in the queue
      refine ⟨p0 ++ [w], List.mem_append_right _ ?_, List.getLastD_concat _ _ _, ?_⟩
      · apply List.mem_map_of_mem
        rw [List.mem_filter]
        exact ⟨hw, by simpa using hwv⟩
      · intro pi hpi hpiv
        have h5 : p0.length ≤ pi.length := by
          apply front_opt inv pi hpi
          rw [hpiv]
          exact hnv
        simp only [List.length_append, List.length_singleton]
        omega
    · rcases inv.expand v hv w hw hwv2 with ⟨p, hp, hpw, hmin⟩
      rcases List.mem_cons.1 hp with rfl | hp
      · rw [hpw] at hwv
        exact absurd (List.mem_cons_self _ _) hwv
      · exact ⟨p, List.mem_append_left _ hp, hpw, hmin⟩

theorem bfs_init_inv (g : DiGraph) (src : String) : BfsInv g src [] [[src]] where
  valid := by
    intro p hp
    rw [List.mem_singleton] at hp
    subst hp
    exact valid_single g src
  sorted_len := by simp
  within := by
    intro p hp q hq
    rw [List.mem_singleton] at hp hq
    subst hp
    subst hq
    simp
  base := Or.inr (by simp)
  expand := by
    intro v hv
    exact absurd hv (List.not_mem_nil v)

theorem bfs_found_spec {g : DiGraph} {src target : String} :
    ∀ (fuel : Nat) (visited : List String) (queue : List (List String)),
      BfsInv g src visited queue → target ∉ visited →
      ∀ p, bfsAux g target fuel visited queue = .found p →
        ValidFrom g src p ∧ p.getLastD "" = target ∧
        ∀ pi, ValidFrom g src pi → pi.getLastD "" = target → p.length ≤ pi.length := by
  intro fuel
  induction fuel with
  | zero =>
    intro visited queue _ _ p hres
    simp [bfsAux] at hres
  | succ fuel ih =>
    intro visited queue inv htv p hres
    cases queue with
    | nil => simp [bfsAux] at hres
    | cons p0 rest =>
      simp only [bfsAux] at hres
      by_cases h1 : p0.getLastD "" = target
      · rw [if_pos h1] at hres
        have hp0 : p0 = p := by
          injection hres
        subst hp0
        refine ⟨inv.valid p0 (List.mem_cons_self _ _), h1, ?_⟩
        intro pi hvpi hpit
        apply front_opt inv pi hvpi
        rw [hpit]
        exact htv
      · rw [if_neg h1] at hres
        by_cases h2 : p0.getLastD "" ∈ visited
        · rw [if_pos h2] at hres
          exact ih visited rest (inv.discard h2) htv p hres
        · rw [if_neg h2] at hres
          refine ih _ _ (inv.expandStep h2) ?_ p hres
          intro hc
          rcases List.mem_cons.1 hc with hc | hc
          · exact h1 hc.symm
          · exact htv hc

theorem bfs_found_nodup {g : DiGraph} {target : String} :
    ∀ (fuel : Nat) (visited : List String) (queue : List (List String)),
      (∀ p ∈ queue, p.Nodup ∧ ∀ x ∈ p.dropLast, x ∈ visited) →
      ∀ p, bfsAux g target fuel visited queue = .found p → p.Nodup := by
  intro fuel
  induction fuel with
  | zero =>
    intro visited queue _ p hres
    simp [bfsAux] at hres
  | succ fuel ih =>
    intro visited queue hinv p hres
    cases queue with
    | nil => simp [bfsAux] at hres
    | cons p0 rest =>
      simp only [bfsAux] at hres
      by_cases h1 : p0.getLastD "" = target
      · rw [if_pos h1] at hres
        have hp0 : p0 = p := by
          injection hres
        subst hp0
        exact (hinv p0 (List.mem_cons_self _ _)).1
      · rw [if_neg h1] at hres
        by_cases h2 : p0.getLastD "" ∈ visited
        · rw [if_pos h2] at hres
          refine ih visited rest ?_ p hres
          intro q hq
          exact hinv q (List.mem_cons_of_mem _ hq)
        · rw [if_neg h2] at hres
          refine ih _ _ ?_ p hres
          intro q hq
          rcases List.mem_append.1 hq with hq | hq
          · rcases hinv q (List.mem_cons_of_mem _ hq) with ⟨hn, hd⟩
            exact ⟨hn, fun x hx => List.mem_cons_of_mem _ (hd x hx)⟩
          · rcases List.mem_map.1 hq with ⟨w, hw, rfl⟩
            rcases List.mem_filter.1 hw with ⟨_, hw2⟩
            have hw3 : w ∉ p0.getLastD "" :: visited := by simpa using hw2
            rcases hinv p0 (List.mem_cons_self _ _) with ⟨hn0, hd0⟩
            have hmem : ∀ x ∈ p0, x ∈ p0.getLastD "" :: visited := by
              intro x hx
              rcases mem_dropLast_or_getLastD "" p0 x hx with h | h
              · exact List.mem_cons_of_mem _ (hd0 x h)
              · rw [h]
                exact List.mem_cons_self _ _
            constructor
            · rw [List.nodup_append]
              refine ⟨hn0, by simp, ?_⟩
              intro x hx hxw
              rw [List.mem_singleton] at hxw
              subst hxw
              exact hw3 (hmem x hx)
            · rw [List.dropLast_concat]
              exact hmem

/-! ### Fuel sufficiency for the BFS loop -/

theorem successors_sub_targets {g : DiGraph} {cur w : String}
    (h : w ∈ successors g cur) : w ∈ edgeTargets g := by
  rcases List.mem_map.1 h with ⟨e, he, rfl⟩
  exact List.mem_map_of_mem _ (List.mem_of_mem_filter he)

theorem phi_discard {g : DiGraph} {visited : List String}
    {p0 : List String} {rest : List (List String)} :
    phi g visited rest < phi g visited (p0 :: rest) := by
  unfold phi
  have hsub : ((queueTails rest ++ edgeTargets g).toFinset \ visited.toFinset)
      ⊆ ((queueTails (p0 :: rest) ++ edgeTargets g).toFinset \ visited.toFinset) := by
    apply Finset.sdiff_subset_sdiff _ (Finset.Subset.refl _)
    intro x hx
    rw [List.mem_toFinset, List.mem_append] at hx
    rw [List.mem_toFinset, List.mem_append]
    rcases hx with hx | hx
    · exact Or.inl (List.mem_cons_of_mem _ hx)
    · exact Or.inr hx
  have hcard := Finset.card_le_card hsub
  have hmul := Nat.mul_le_mul_left (g.edges.length + 1) hcard
  simp only [List.length_cons]
  omega

theorem phi_expand {g : DiGraph} {visited : List String}
    {p0 : List String} {rest : List (List String)}
    (hnv : p0.getLastD "" ∉ visited) :
    phi g (p0.getLastD "" :: visited)
      (rest ++ ((successors g (p0.getLastD "")).filter
          (fun w => decide (¬ w ∈ p0.getLastD "" :: visited))).map (fun w => p0 ++ [w]))
      < phi g visited (p0 :: rest) := by
  unfold phi
  have hcur : p0.getLastD "" ∈
      ((queueTails (p0 :: rest) ++ edgeTargets g).toFinset \ visited.toFinset) := by
    rw [Finset.mem_sdiff, List.mem_toFinset, List.mem_toFinset]
    constructor
    · rw [List.mem_append]
      exact Or.inl (List.mem_cons_self _ _)
    · exact hnv
  have hsub : ((queueTails (rest ++ ((successors g (p0.getLastD "")).filter
          (fun w => decide (¬ w ∈ p0.getLastD "" :: visited))).map (fun w => p0 ++ [w]))
        ++ edgeTargets g).toFinset \ (p0.getLastD "" :: visited).toFinset)
      ⊆ ((queueTails (p0 :: rest) ++ edgeTargets g).toFinset \ visited.toFinset).erase
          (p0.getLastD "") := by
    intro x hx
    rw [Finset.mem_sdiff, List.mem_toFinset, List.mem_toFinset, List.mem_cons] at hx
    rcases hx with ⟨hx1, hx2⟩
    rw [Finset.mem_erase, Finset.mem_sdiff, List.mem_toFinset, List.mem_toFinset]
    refine ⟨fun hc => hx2 (Or.inl hc), ?_, fun hc => hx2 (Or.inr hc)⟩
    rw [List.mem_append] at hx1
    rw [List.mem_append]
    rcases hx1 with hx1 | hx1
    · unfold queueTails at hx1
      rw [List.mem_map] at hx1
      rcases hx1 with ⟨q, hq, rfl⟩
      rcases List.mem_append.1 hq with hq | hq
      · exact Or.inl (List.mem_map_of_mem _ (List.mem_cons_of_mem _ hq))
      · rcases List.mem_map.1 hq with ⟨w, hw, rfl⟩
        rw [List.getLastD_concat]
        exact Or.inr (successors_sub_targets (List.mem_of_mem_filter hw))
    · exact Or.inr hx1
  have hcard := Finset.card_le_card hsub
  rw [Finset.card_erase_of_mem hcur] at hcard
  have hpos : 1 ≤ ((queueTails (p0 :: rest) ++ edgeTargets g).toFinset \
      visited.toFinset).card := Finset.card_pos.2 ⟨_, hcur⟩
  have hexts : (((successors g (p0.getLastD "")).filter
      (fun w => decide (¬ w ∈ p0.getLastD "" :: visited))).map
        (fun w => p0 ++ [w])).length ≤ g.edges.length := by
    rw [List.length_map]
    calc ((successors g (p0.getLastD "")).filter
          (fun w => decide (¬ w ∈ p0.getLastD "" :: visited))).length
        ≤ (successors g (p0.getLastD "")).length := List.length_filter_le _ _
      _ ≤ g.edges.length := by
          unfold successors
          rw [List.length_map]
          exact List.length_filter_le _ _
  obtain ⟨c0, hc0⟩ : ∃ c0, ((queueTails (p0 :: rest) ++ edgeTargets g).toFinset \
      visited.toFinset).card = c0 + 1 :=
    ⟨((queueTails (p0 :: rest) ++ edgeTargets g).toFinset \ visited.toFinset).card - 1,
      by omega⟩
  rw [hc0] at hcard
  have h2 : ((queueTails (rest ++ ((successors g (p0.getLastD "")).filter
      (fun w => decide (¬ w ∈ p0.getLastD "" :: visited))).map (fun w => p0 ++ [w]))
        ++ edgeTargets g).toFinset \ (p0.getLastD "" :: visited).toFinset).card ≤ c0 := by
    omega
  have h3 := Nat.mul_le_mul_left (g.edges.length + 1) h2
  rw [hc0, List.length_append, List.length_cons, Nat.mul_add, Nat.mul_one]
  omega

theorem bfs_not_out {g : DiGraph} {target : String} :
    ∀ (fuel : Nat) (visited : List String) (queue : List (List String)),
      phi g visited queue < fuel → bfsAux g target fuel visited queue ≠ .out := by
  intro fuel
  induction fuel with
  | zero =>
    intro visited queue h
    exact absurd h (Nat.not_lt_zero _)
  | succ fuel ih =>
    intro visited queue hlt
    cases queue with
    | nil => simp [bfsAux]
    | cons p0 rest =>
      simp only [bfsAux]
      by_cases h1 : p0.getLastD "" = target
      · rw [if_pos h1]
        simp
      · rw [if_neg h1]
        by_cases h2 : p0.getLastD "" ∈ visited
        · rw [if_pos h2]
          refine ih visited rest ?_
          have := @phi_discard g visited p0 rest
          omega
        · rw [if_neg h2]
          refine ih _ _ ?_
          have := @phi_expand g visited p0 rest h2
          omega

/-! ### Claims about the shortest-path operation -/

/-- C1: for clubs present in the graph, a non-empty result of
`get_shortest_path` is a directed path from source to target of minimal
length (edge count) among all such directed paths, and when no directed
route exists the returned club list is empty. -/
theorem c1_shortest_path_correct (g : DiGraph) (from_club to_club : String)
    (ha : from_club ∈ g.nodes) (hb : to_club ∈ g.nodes) :
    ((get_shortest_path g from_club to_club).1 ≠ [] →
      IsPathFromTo g from_club to_club (get_shortest_path g from_club to_club).1
      ∧ ∀ q, IsPathFromTo g from_club to_club q →
          (get_shortest_path g from_club to_club).1.length ≤ q.length)
    ∧ ((¬ ∃ q, IsPathFromTo g from_club to_club q) →
        (get_shortest_path g from_club to_club).1 = []) := by
  unfold get_shortest_path
  rw [if_pos ⟨ha, hb⟩]
  cases hres : bfsAux g to_club (bfsFuel g from_club) [] [[from_club]] with
  | found p =>
    have hspec := bfs_found_spec (bfsFuel g from_club) [] [[from_club]]
      (bfs_init_inv g from_club) (List.not_mem_nil _) p hres
    constructor
    · intro _
      refine ⟨⟨hspec.1, hspec.2.1⟩, ?_⟩
      intro q hq
      exact hspec.2.2 q hq.1 hq.2
    · intro hno
      exact absurd ⟨p, hspec.1, hspec.2.1⟩ hno
  | noPath => exact ⟨fun h => absurd rfl h, fun _ => rfl⟩
  | out => exact ⟨fun h => absurd rfl h, fun _ => rfl⟩

theorem c1_witness :
    (("A" : String) ∈ (DiGraph.mk ["A", "B"] [("A", "B", [mkTransfer "p" "FW" 3 2020])]).nodes
      ∧ ("B" : String) ∈ (DiGraph.mk ["A", "B"] [("A", "B", [mkTransfer "p" "FW" 3 2020])]).nodes)
    ∧ (((get_shortest_path ⟨["A", "B"], [("A", "B", [mkTransfer "p" "FW" 3 2020])]⟩ "A" "B").1 ≠ [] →
        IsPathFromTo ⟨["A", "B"], [("A", "B", [mkTransfer "p" "FW" 3 2020])]⟩ "A" "B"
          (get_shortest_path ⟨["A", "B"], [("A", "B", [mkTransfer "p" "FW" 3 2020])]⟩ "A" "B").1
        ∧ ∀ q, IsPathFromTo ⟨["A", "B"], [("A", "B", [mkTransfer "p" "FW" 3 2020])]⟩ "A" "B" q →
            (get_shortest_path ⟨["A", "B"], [("A", "B", [mkTransfer "p" "FW" 3 2020])]⟩
                "A" "B").1.length ≤ q.length)
      ∧ ((¬ ∃ q, IsPathFromTo ⟨["A", "B"], [("A", "B", [mkTransfer "p" "FW" 3 2020])]⟩ "A" "B" q) →
          (get_shortest_path ⟨["A", "B"], [("A", "B", [mkTransfer "p" "FW" 3 2020])]⟩ "A" "B").1
            = [])) :=
  ⟨⟨by decide, by decide⟩,
    c1_shortest_path_correct ⟨["A", "B"], [("A", "B", [mkTransfer "p" "FW" 3 2020])]⟩ "A" "B"
      (by decide) (by decide)⟩

/-- C8: for a club that is a node, the shortest path from the club to
itself is the one-element sequence holding just that club. -/
theorem c8_self_path (g : DiGraph) (X : String) (h : X ∈ g.nodes) :
    get_shortest_path g X X = ([X], []) := by
  unfold get_shortest_path
  rw [if_pos ⟨h, h⟩]
  have hstep : bfsAux g X (bfsFuel g X) [] [[X]] = .found [X] := by
    unfold bfsFuel
    simp [bfsAux]
  rw [hstep]

theorem c8_witness :
    ("A" : String) ∈ (DiGraph.mk ["A", "B"] [("A", "B", [mkTransfer "p" "FW" 3 2020])]).nodes
    ∧ get_shortest_path ⟨["A", "B"], [("A", "B", [mkTransfer "p" "FW" 3 2020])]⟩ "A" "A"
      = (["A"], []) :=
  ⟨by decide,
    c8_self_path ⟨["A", "B"], [("A", "B", [mkTransfer "p" "FW" 3 2020])]⟩ "A" (by decide)⟩

/-- C10: every club list returned by `get_shortest_path` is duplicate
free: the BFS only extends a path by clubs outside the visited set, and
all non-tail clubs of a queued path are already visited. -/
theorem c10_simple_path (g : DiGraph) (from_club to_club : String) :
    ((get_shortest_path g from_club to_club).1).Nodup := by
  unfold get_shortest_path
  by_cases hab : from_club ∈ g.nodes ∧ to_club ∈ g.nodes
  · rw [if_pos hab]
    cases hres : bfsAux g to_club (bfsFuel g from_club) [] [[from_club]] with
    | found p =>
      refine bfs_found_nodup (bfsFuel g from_club) [] [[from_club]] ?_ p hres
      intro q hq
      rw [List.mem_singleton] at hq
      subst hq
      exact ⟨by simp, by simp⟩
    | noPath => simp
    | out => simp
  · rw [if_neg hab]
    simp

theorem notFound_ne_noPath (a b : String) : notFoundMsg ≠ noPathMsg a b := by
  intro h
  have h1 : notFoundMsg.data.head? = some 'O' := rfl
  have h2 : (noPathMsg a b).data.head? = some 'N' := by
    unfold noPathMsg
    rw [String.data_append, String.data_append, String.data_append, String.data_append]
    rw [List.head?_append, List.head?_append, List.head?_append, List.head?_append]
    rfl
  rw [h, h2] at h1
  exact absurd h1 (by decide)

/-- C4: the two failure conditions of `get_shortest_path` are signalled
to the caller by distinct printed messages with an empty path, while a
success prints nothing and returns a non-empty path, so the three
outcomes are pairwise distinguishable from the observable result. -/
theorem c4_failure_signals (g : DiGraph) (from_club to_club : String) :
    ((from_club ∉ g.nodes ∨ to_club ∉ g.nodes) ↔
        get_shortest_path g from_club to_club = ([], [notFoundMsg]))
    ∧ (get_shortest_path g from_club to_club = ([], [noPathMsg from_club to_club]) →
        from_club ∈ g.nodes ∧ to_club ∈ g.nodes)
    ∧ ((get_shortest_path g from_club to_club).2 = [] →
        (get_shortest_path g from_club to_club).1 ≠ [])
    ∧ ((get_shortest_path g from_club to_club).1 = [] →
        (get_shortest_path g from_club to_club).2 ≠ [])
    ∧ notFoundMsg ≠ noPathMsg from_club to_club := by
  by_cases hab : from_club ∈ g.nodes ∧ to_club ∈ g.nodes
  · unfold get_shortest_path
    rw [if_pos hab]
    cases hres : bfsAux g to_club (bfsFuel g from_club) [] [[from_club]] with
    | found p =>
      have hspec := bfs_found_spec (bfsFuel g from_club) [] [[from_club]]
        (bfs_init_inv g from_club) (List.not_mem_nil _) p hres
      have hpne : p ≠ [] := hspec.1.1
      refine ⟨⟨fun hc => absurd hab (not_and_or.2 hc), fun hc => ?_⟩, fun _ => hab,
        fun _ => hpne, fun hc => absurd hc hpne, notFound_ne_noPath _ _⟩
      have h2 := congrArg Prod.snd hc
      simp at h2
    | noPath =>
      refine ⟨⟨fun hc => absurd hab (not_and_or.2 hc), fun hc => ?_⟩, fun _ => hab,
        fun hc => ?_, fun _ => by simp, notFound_ne_noPath _ _⟩
      · have h2 := congrArg Prod.snd hc
        simp at h2
        exact absurd h2.symm (notFound_ne_noPath _ _)
      · simp at hc
    | out =>
      exact absurd hres (bfs_not_out (bfsFuel g from_club) [] [[from_club]]
        (by unfold bfsFuel; omega))
  · unfold get_shortest_path
    rw [if_neg hab]
    refine ⟨⟨fun _ => rfl, fun _ => not_and_or.1 hab⟩, fun hc => ?_, fun hc => by simp at hc,
      fun _ => by simp, notFound_ne_noPath _ _⟩
    have h2 := congrArg Prod.snd hc
    simp at h2
    exact absurd h2 (notFound_ne_noPath _ _)

theorem c4_witness :
    ((("C" : String) ∉ (DiGraph.mk ["A", "B"] [("A", "B", [mkTransfer "p" "FW" 3 2020])]).nodes
        ∨ ("B" : String) ∉ (DiGraph.mk ["A", "B"] [("A", "B", [mkTransfer "p" "FW" 3 2020])]).nodes) ↔
      get_shortest_path ⟨["A", "B"], [("A", "B", [mkTransfer "p" "FW" 3 2020])]⟩ "C" "B"
        = ([], [notFoundMsg]))
    ∧ (get_shortest_path ⟨["A", "B"], [("A", "B", [mkTransfer "p" "FW" 3 2020])]⟩ "C" "B"
        = ([], [noPathMsg "C" "B"]) →
        ("C" : String) ∈ (DiGraph.mk ["A", "B"] [("A", "B", [mkTransfer "p" "FW" 3 2020])]).nodes
        ∧ ("B" : String) ∈ (DiGraph.mk ["A", "B"] [("A", "B", [mkTransfer "p" "FW" 3 2020])]).nodes)
    ∧ ((get_shortest_path ⟨["A", "B"], [("A", "B", [mkTransfer "p" "FW" 3 2020])]⟩ "C" "B").2 = [] →
        (get_shortest_path ⟨["A", "B"], [("A", "B", [mkTransfer "p" "FW" 3 2020])]⟩ "C" "B").1 ≠ [])
    ∧ ((get_shortest_path ⟨["A", "B"], [("A", "B", [mkTransfer "p" "FW" 3 2020])]⟩ "C" "B").1 = [] →
        (get_shortest_path ⟨["A", "B"], [("A", "B", [mkTransfer "p" "FW" 3 2020])]⟩ "C" "B").2 ≠ [])
    ∧ notFoundMsg ≠ noPathMsg "C" "B" :=
  c4_failure_signals ⟨["A", "B"], [("A", "B", [mkTransfer "p" "FW" 3 2020])]⟩ "C" "B"

/-! ### Concrete evaluations: the scenario of the specification -/

example :
    get_shortest_path
      (_add_transfer (_add_transfer ⟨[], []⟩ "A" "B" "p" "FW" 1 2020) "B" "C" "q" "GK" 2 2021)
      "A" "C" = (["A", "B", "C"], []) := by decide

example :
    degreeOf
      (_add_transfer (_add_transfer ⟨[], []⟩ "A" "B" "p" "FW" 1 2020) "B" "C" "q" "GK" 2 2021)
      "B" = 2 := by decide

example :
    degreeOf
      (_add_transfer (_add_transfer ⟨[], []⟩ "A" "B" "p" "FW" 1 2020) "B" "C" "q" "GK" 2 2021)
      "A" = 1 := by decide

example :
    get_shortest_path ⟨["A", "B"], [("A", "B", [mkTransfer "p" "FW" 3 2020])]⟩ "B" "A"
      = ([], [noPathMsg "B" "A"]) := by decide

example :
    get_shortest_path ⟨["A", "B"], [("A", "B", [mkTransfer "p" "FW" 3 2020])]⟩ "A" "Z"
      = ([], [notFoundMsg]) := by decide

example : most_connected_clubs ⟨[], []⟩ 10 = [] := by decide

example :
    link_wikipedia "Real Madrid" = "https://en.wikipedia.org/wiki/Real_Madrid" := by decide
